import Mathlib

/-!
Shallow embedding of `paradox-localization-parser` (`src/lib.rs`).

The whole library is the single function `Localization::parse`.  Every
definition below is translated from that source file:

* Rust `str::lines` (split on a newline character, strip one trailing
  carriage return per line, no final empty line) becomes `rustLines`.
* The header scan (`line.starts_with("l_")`), the owned-range computation
  (`lang_entries` plus `next_entry_idx`), the `HashMap::insert` grouping
  (`units_for_entry`) and the per-line regex matching are each modelled
  by an executable function on `List Char` / `List String`.
* The regex `(?P<key>.*):(?P<version>\d+)?\s+\"(?P<content>.*)\"$` is a
  fixed pattern: its capture semantics under the regex crate's
  leftmost-greedy rules are realised by `matchUnitAux` / `tailCheck`
  (the greedy `.*` key takes the last colon whose tail matches; the
  optional version group takes the maximal digit run or is absent; the
  `\s+` run is maximal and must be followed by a quote; the closing
  quote is the last character of the line).  `\d` and `\s` are modelled
  by `Char.isDigit` and `Char.isWhitespace` (the inputs of interest are
  ASCII), and `.` as any character, since lines produced by `rustLines`
  never contain a newline.
* The two panic sites (`captures(..).unwrap()` on a non-matching line
  and `parse::<i32>().unwrap()` on an out-of-range version) are modelled
  by `Option`: `Localization.parse` returns `none` where the Rust code
  aborts.  `parse::<i32>` succeeds on a digit run exactly when its value
  is at most 2147483647.
* Rust `HashMap` iteration order is unspecified; the model uses an
  association list in first-insertion order with in-place overwrite.
  Only order-insensitive facts about the returned collection are stated.
-/

set_option maxHeartbeats 1000000

namespace Paradox

/-- Mirror of `struct LocalizationUnit`.  The `version` field models
`Option<i32>`; parsed versions come from digit runs, so the value is a
natural number (at most 2147483647 when produced by the parser). -/
structure LocalizationUnit where
  key : String
  version : Option Nat
  value : String
deriving DecidableEq

/-- Mirror of `struct Localization`. -/
structure Localization where
  lang : String
  units : List LocalizationUnit
deriving DecidableEq

/-- Split a character list at newline characters; mirror of the split
underlying Rust `str::lines` (before dropping the final empty piece). -/
def splitNL : List Char → List (List Char)
  | [] => [[]]
  | c :: rest =>
    if c = '\n' then [] :: splitNL rest
    else
      match splitNL rest with
      | [] => [[c]]
      | l :: ls => (c :: l) :: ls

/-- Strip one trailing carriage return, as Rust `str::lines` does for
`\r\n` line endings. -/
def stripCR (l : List Char) : List Char :=
  if l.getLast? = some '\r' then l.dropLast else l

/-- Mirror of `content.lines().collect::<Vec<_>>()`: split on `'\n'`,
drop the final empty piece produced by a trailing newline, strip one
trailing `'\r'` per line. -/
def rustLines (cs : List Char) : List (List Char) :=
  if cs.isEmpty then []
  else
    let parts := splitNL cs
    let parts := if parts.getLast? = some [] then parts.dropLast else parts
    parts.map stripCR

/-- Mirror of `line.starts_with("l_")`. -/
def isHeader : List Char → Bool
  | 'l' :: '_' :: _ => true
  | _ => false

/-- Indices of the header lines; mirror of `lang_entries`. -/
def langEntries : List (List Char) → List Nat
  | [] => []
  | l :: rest =>
    (if isHeader l then [0] else []) ++ (langEntries rest).map (· + 1)

/-- For each header index its exclusive end: the next header index, or
the total number of lines for the last header.  Mirror of the
`next_entry_idx` computation inside the `for` loop. -/
def entryRanges : List Nat → Nat → List (Nat × Nat)
  | [], _ => []
  | [i], n => [(i, n)]
  | i :: j :: rest, n => (i, j) :: entryRanges (j :: rest) n

/-- The `(key, owned lines)` pairs in header order: the key is the
header line with its first two characters removed
(`&lines[*lang_entry_idx][2..]`), the owned lines are
`&lines[idx + 1..next_entry_idx]`. -/
def associatedUnits (lines : List (List Char)) : List (List Char × List (List Char)) :=
  (entryRanges (langEntries lines) lines.length).map
    (fun p => ((lines.getD p.1 []).drop 2, (lines.drop (p.1 + 1)).take (p.2 - p.1 - 1)))

/-- `HashMap::insert`: overwrite the value of an existing key, keeping
the association list otherwise unchanged, or append a fresh key. -/
def insertEntry : List (List Char × List (List Char)) → List Char → List (List Char) →
    List (List Char × List (List Char))
  | [], k, v => [(k, v)]
  | (k0, v0) :: m, k, v =>
    if k0 = k then (k, v) :: m else (k0, v0) :: insertEntry m k v

/-- Mirror of building `units_for_entry`: insert every `(key, owned
lines)` pair in header order; a repeated key overwrites. -/
def unitsForEntry (lines : List (List Char)) : List (List Char × List (List Char)) :=
  (associatedUnits lines).foldl (fun m p => insertEntry m p.1 p.2) []

/-- Mirror of `lang.replace("l_", "")`: remove every non-overlapping
occurrence of the two-character pattern, scanning left to right. -/
def replaceLU : List Char → List Char
  | 'l' :: '_' :: rest => replaceLU rest
  | c :: rest => c :: replaceLU rest
  | [] => []

/-- Tail of the regex after the colon chosen for the key:
`(?P<version>\d+)?\s+\"(?P<content>.*)\"$`.  The version is the maximal
digit run (absent when empty), then a nonempty maximal whitespace run
must be followed by a quote, and the line must end in a closing quote
strictly after the opening one. -/
def tailCheck (rest : List Char) : Option (Option (List Char) × List Char) :=
  let ds := rest.takeWhile Char.isDigit
  let r1 := rest.dropWhile Char.isDigit
  let ws := r1.takeWhile Char.isWhitespace
  let r2 := r1.dropWhile Char.isWhitespace
  if ws.isEmpty then none
  else
    match r2 with
    | [] => none
    | c :: r3 =>
      if c = '"' then
        if r3.getLast? = some '"' then
          some (if ds.isEmpty then none else some ds, r3.dropLast)
        else none
      else none

/-- Greedy-key matching of the unit-line regex: the key extends to the
last colon whose tail matches `tailCheck`; the recursion prefers a
split found deeper in the list. -/
def matchUnitAux : List Char → Option (List Char × Option (List Char) × List Char)
  | [] => none
  | c :: rest =>
    match matchUnitAux rest with
    | some (k, v, val) => some (c :: k, v, val)
    | none =>
      if c = ':' then (tailCheck rest).map (fun p => ([], p.1, p.2))
      else none

/-- Capture groups of `localization_unit_regex` on a whole line, or
`none` when the line does not match. -/
def matchUnit (l : List Char) : Option (List Char × Option (List Char) × List Char) :=
  matchUnitAux l

/-- Numeric value of a digit character. -/
def digitVal (c : Char) : Nat := c.toNat - 48

/-- Value of a digit run, most significant digit first; mirror of
`str::parse` on a string of decimal digits. -/
def digitsToNat (ds : List Char) : Nat :=
  ds.foldl (fun a c => 10 * a + digitVal c) 0

/-- Mirror of `unit.trim()` (leading and trailing whitespace removed). -/
def trimL (l : List Char) : List Char :=
  ((l.dropWhile Char.isWhitespace).reverse.dropWhile Char.isWhitespace).reverse

/-- Mirror of `unit.is_empty() || unit.starts_with("#")` on the trimmed
line: such lines are skipped. -/
def skipLine (t : List Char) : Bool :=
  t.isEmpty || t.head? = some '#'

/-- Build one `LocalizationUnit` from a trimmed unit line: `none` models
the panics (`captures(..).unwrap()` when the regex does not match, and
`parse::<i32>().unwrap()` when the digit run exceeds `i32::MAX`). -/
def parseUnitLine (t : List Char) : Option LocalizationUnit :=
  match matchUnit t with
  | none => none
  | some (k, none, val) => some ⟨⟨k⟩, none, ⟨val⟩⟩
  | some (k, some ds, val) =>
    if digitsToNat ds ≤ 2147483647 then some ⟨⟨k⟩, some (digitsToNat ds), ⟨val⟩⟩
    else none

/-- The inner `for unit in units` loop: skip blank and comment lines,
fail on a malformed line, append units in line order. -/
def processGroup : List (List Char) → Option (List LocalizationUnit)
  | [] => some []
  | l :: rest =>
    let t := trimL l
    if skipLine t then processGroup rest
    else
      match parseUnitLine t with
      | none => none
      | some u => (processGroup rest).map (fun us => u :: us)

/-- `List.mapM` for `Option`, written out so that it mirrors the outer
`for (lang, units) in units_for_entry` loop: the first failing group
aborts the whole parse. -/
def mapMO (f : α → Option β) : List α → Option (List β)
  | [] => some []
  | a :: l =>
    match f a with
    | none => none
    | some b => (mapMO f l).map (fun bs => b :: bs)

/-- Parse at the line level: group the lines, then build one
`Localization` per map entry with `lang = key.replace("l_", "")`. -/
def parseLines (lines : List (List Char)) : Option (List Localization) :=
  mapMO (fun p => (processGroup p.2).map (fun us => ⟨⟨replaceLU p.1⟩, us⟩))
    (unitsForEntry lines)

/-- Mirror of `Localization::parse`.  `none` models the panics of the
Rust function; the order of the returned list stands for one possible
`HashMap` iteration order, and only order-insensitive facts are proved
about it. -/
def Localization.parse (content : String) : Option (List Localization) :=
  parseLines (rustLines content.data)

/-- The decimal digit character for a value below ten. -/
def digitChar : Nat → Char
  | 0 => '0' | 1 => '1' | 2 => '2' | 3 => '3' | 4 => '4'
  | 5 => '5' | 6 => '6' | 7 => '7' | 8 => '8' | 9 => '9'
  | _ => '*'

/-- Decimal digit characters of a natural number, most significant
first; mirror of `i32::to_string` on a non-negative value. -/
def natToChars (n : Nat) : List Char :=
  if _h : n < 10 then [digitChar n]
  else natToChars (n / 10) ++ [digitChar (n % 10)]
decreasing_by exact Nat.div_lt_self (by omega) (by omega)

/-- Serialization of one unit as `key:version "value"` with the colon
kept and the digits omitted when the version is absent. -/
def serializeUnit (u : LocalizationUnit) : List Char :=
  u.key.data ++ ':' :: (match u.version with
    | none => []
    | some n => natToChars n) ++ ' ' :: '"' :: u.value.data ++ ['"']

/-- Lookup in the association-list model of the `HashMap`. -/
def lookupK (k : List Char) : List (List Char × List (List Char)) → Option (List (List Char))
  | [] => none
  | (k0, v) :: m => if k0 = k then some v else lookupK k m

/-- First-some choice on options, used to state lookup-after-fold
facts. -/
def orO : Option α → Option α → Option α
  | some v, _ => some v
  | none, b => b

/-- Modelled from the claim C4 wording: the text strictly between the
first double-quote and the last double-quote of a line, when the line
has at least two quotes. -/
def specBetweenFirstLastQuote (l : List Char) : Option (List Char) :=
  match l.dropWhile (fun c => !(c = '"')) with
  | '"' :: r =>
    match r.reverse.dropWhile (fun c => !(c = '"')) with
    | '"' :: m => some m.reverse
    | _ => none
  | _ => none

/-! ### Character facts -/

theorem isDigit_eq_false_of_isWhitespace {c : Char} (h : c.isWhitespace = true) :
    c.isDigit = false := by
  simp only [Char.isWhitespace, decide_eq_true_eq, Bool.or_eq_true] at h
  rcases h with ((h | h) | h) | h <;> rw [h] <;> decide

theorem ne_colon_of_isWhitespace {c : Char} (h : c.isWhitespace = true) : c ≠ ':' := by
  intro hc
  rw [hc] at h
  exact absurd h (by decide)

theorem ne_colon_of_isDigit {c : Char} (h : c.isDigit = true) : c ≠ ':' := by
  intro hc
  rw [hc] at h
  exact absurd h (by decide)

/-! ### takeWhile and dropWhile over an all-true block -/

theorem takeWhile_dropWhile_split {p : Char → Bool} (xs ys : List Char)
    (hxs : ∀ x ∈ xs, p x = true)
    (hys : ∀ c, ys.head? = some c → p c = false) :
    (xs ++ ys).takeWhile p = xs ∧ (xs ++ ys).dropWhile p = ys := by
  induction xs with
  | nil =>
    cases ys with
    | nil => simp
    | cons c ys' =>
      have hc : p c = false := hys c rfl
      simp [List.takeWhile_cons, List.dropWhile_cons, hc]
  | cons x xs ih =>
    have hx : p x = true := hxs x (by simp)
    have ⟨ih1, ih2⟩ := ih (fun a ha => hxs a (by simp [ha]))
    constructor
    · simp only [List.cons_append, List.takeWhile_cons, hx, if_true, ih1]
    · simp only [List.cons_append, List.dropWhile_cons, hx, if_true, ih2]

theorem getLast?_decomp {α : Type} {l : List α} {a : α} (h : l.getLast? = some a) :
    l = l.dropLast ++ [a] := by
  induction l with
  | nil => simp at h
  | cons x xs ih =>
    cases xs with
    | nil =>
      simp only [List.getLast?_singleton, Option.some.injEq] at h
      simp [h]
    | cons y ys =>
      rw [List.getLast?_cons_cons] at h
      have := ih h
      calc x :: y :: ys = x :: (y :: ys) := rfl
        _ = x :: ((y :: ys).dropLast ++ [a]) := by rw [← this]
        _ = (x :: y :: ys).dropLast ++ [a] := by simp [List.dropLast_cons₂]

/-! ### Decimal digit lemmas -/

theorem digitVal_digitChar {d : Nat} (h : d < 10) : digitVal (digitChar d) = d := by
  interval_cases d <;> decide

theorem isDigit_digitChar {d : Nat} (h : d < 10) : (digitChar d).isDigit = true := by
  interval_cases d <;> decide

theorem natToChars_ne_nil (n : Nat) : natToChars n ≠ [] := by
  rw [natToChars]
  split
  · simp
  · simp

theorem natToChars_all_digit (n : Nat) : ∀ c ∈ natToChars n, c.isDigit = true := by
  induction n using Nat.strong_induction_on with
  | _ n ih =>
    rw [natToChars]
    split
    · intro c hc
      simp only [List.mem_singleton] at hc
      subst hc
      exact isDigit_digitChar (by omega)
    · intro c hc
      rw [List.mem_append] at hc
      rcases hc with hc | hc
      · exact ih (n / 10) (Nat.div_lt_self (by omega) (by omega)) c hc
      · simp only [List.mem_singleton] at hc
        subst hc
        exact isDigit_digitChar (Nat.mod_lt _ (by omega))

theorem digitsToNat_append (xs : List Char) (c : Char) :
    digitsToNat (xs ++ [c]) = 10 * digitsToNat xs + digitVal c := by
  simp [digitsToNat, List.foldl_append]

theorem digitsToNat_natToChars (n : Nat) : digitsToNat (natToChars n) = n := by
  induction n using Nat.strong_induction_on with
  | _ n ih =>
    rw [natToChars]
    split
    · next h =>
      simp [digitsToNat, digitVal_digitChar h]
    · next h =>
      rw [digitsToNat_append, ih (n / 10) (Nat.div_lt_self (by omega) (by omega)),
        digitVal_digitChar (Nat.mod_lt _ (by omega))]
      omega

/-! ### Matcher lemmas -/

theorem matchUnitAux_append_some {t : List Char} {k v val} (A : List Char)
    (h : matchUnitAux t = some (k, v, val)) :
    matchUnitAux (A ++ t) = some (A ++ k, v, val) := by
  induction A with
  | nil => simpa using h
  | cons c A ih =>
    simp only [List.cons_append, matchUnitAux, List.append_eq, ih]

theorem matchUnitAux_append_none {t : List Char} (A : List Char)
    (hA : ∀ c ∈ A, c ≠ ':') :
    matchUnitAux (A ++ t) = none ↔ matchUnitAux t = none := by
  induction A with
  | nil => simp
  | cons c A ih =>
    have hc : c ≠ ':' := hA c (by simp)
    have ih' := ih (fun a ha => hA a (by simp [ha]))
    simp only [List.cons_append, matchUnitAux]
    cases h : matchUnitAux (A ++ t) with
    | some p =>
      simp only [reduceCtorEq, false_iff]
      intro ht
      rw [ih'.mpr ht] at h
      exact absurd h (by simp)
    | none =>
      simp only [if_neg hc, true_iff]
      exact ih'.mp h

theorem tailCheck_eq (ds ws val : List Char) (hds : ∀ c ∈ ds, c.isDigit = true)
    (hws : ∀ c ∈ ws, c.isWhitespace = true) (hne : ws ≠ []) :
    tailCheck (ds ++ (ws ++ ('"' :: (val ++ ['"'])))) =
      some (if ds.isEmpty then none else some ds, val) := by
  have hyd : ∀ c, (ws ++ ('"' :: (val ++ ['"']))).head? = some c →
      Char.isDigit c = false := by
    intro c hc
    cases ws with
    | nil =>
      exact absurd rfl hne
    | cons w ws2 =>
      rw [List.cons_append, List.head?_cons, Option.some.injEq] at hc
      rw [← hc]
      exact isDigit_eq_false_of_isWhitespace (hws w (by simp))
  have hyw : ∀ c, ('"' :: (val ++ ['"'])).head? = some c →
      Char.isWhitespace c = false := by
    intro c hc
    rw [List.head?_cons, Option.some.injEq] at hc
    rw [← hc]
    decide
  have hd := takeWhile_dropWhile_split ds (ws ++ ('"' :: (val ++ ['"']))) hds hyd
  have hw := takeWhile_dropWhile_split ws ('"' :: (val ++ ['"'])) hws hyw
  have hne2 : ws.isEmpty = false := by
    cases ws with
    | nil => exact absurd rfl hne
    | cons w ws2 => rfl
  rw [tailCheck]
  rw [hd.1, hd.2, hw.1, hw.2, hne2]
  simp [List.getLast?_concat, List.dropLast_concat]

theorem tailCheck_decomp {rest : List Char} {v : Option (List Char)} {val : List Char}
    (h : tailCheck rest = some (v, val)) :
    ∃ ds ws, rest = ds ++ (ws ++ ('"' :: (val ++ ['"']))) ∧
      (∀ c ∈ ds, c.isDigit = true) ∧ (∀ c ∈ ws, c.isWhitespace = true) ∧ ws ≠ [] ∧
      v = (if ds.isEmpty then none else some ds) := by
  rw [tailCheck] at h
  have hsplit1 := List.takeWhile_append_dropWhile (p := Char.isDigit) (l := rest)
  have hsplit2 := List.takeWhile_append_dropWhile (p := Char.isWhitespace)
    (l := rest.dropWhile Char.isDigit)
  have hmemd : ∀ c ∈ rest.takeWhile Char.isDigit, c.isDigit = true :=
    fun a ha => List.mem_takeWhile_imp ha
  have hmemw : ∀ c ∈ (rest.dropWhile Char.isDigit).takeWhile Char.isWhitespace,
      c.isWhitespace = true :=
    fun a ha => List.mem_takeWhile_imp ha
  generalize hds : rest.takeWhile Char.isDigit = ds at h hsplit1 hmemd
  generalize hr1 : rest.dropWhile Char.isDigit = r1 at h hsplit1 hsplit2 hmemw
  generalize hws : r1.takeWhile Char.isWhitespace = ws at h hsplit2 hmemw
  generalize hr2 : r1.dropWhile Char.isWhitespace = r2 at h hsplit2
  by_cases hempty : ws.isEmpty
  · rw [if_pos hempty] at h
    exact absurd h (by simp)
  · rw [if_neg hempty] at h
    cases r2 with
    | nil => exact absurd h (by simp)
    | cons c r3 =>
      simp only [] at h
      by_cases hc : c = '"'
      · rw [if_pos hc] at h
        by_cases hl : r3.getLast? = some '"'
        · rw [if_pos hl] at h
          simp only [Option.some.injEq, Prod.mk.injEq] at h
          refine ⟨ds, ws, ?_, hmemd, hmemw, ?_, h.1.symm⟩
          · have e3 : r3 = r3.dropLast ++ ['"'] := getLast?_decomp hl
            rw [← hsplit1, ← hsplit2, hc, e3, ← h.2]
          · intro hn
            rw [hn] at hempty
            exact hempty rfl
        · rw [if_neg hl] at h
          exact absurd h (by simp)
      · rw [if_neg hc] at h
        exact absurd h (by simp)

theorem matchUnitAux_decomp {s : List Char} {k : List Char} {v : Option (List Char)}
    {val : List Char} (h : matchUnitAux s = some (k, v, val)) :
    ∃ ds ws, s = k ++ ':' :: (ds ++ (ws ++ ('"' :: (val ++ ['"'])))) ∧
      (∀ c ∈ ds, c.isDigit = true) ∧ (∀ c ∈ ws, c.isWhitespace = true) ∧ ws ≠ [] ∧
      v = (if ds.isEmpty then none else some ds) ∧
      matchUnitAux (ds ++ (ws ++ ('"' :: (val ++ ['"'])))) = none := by
  induction s generalizing k with
  | nil => exact absurd h (by simp [matchUnitAux])
  | cons c rest ih =>
    rw [matchUnitAux] at h
    cases hr : matchUnitAux rest with
    | some p =>
      rw [hr] at h
      obtain ⟨k2, v2, val2⟩ := p
      simp only [Option.some.injEq, Prod.mk.injEq] at h
      obtain ⟨hk, hv, hval⟩ := h
      subst hv hval
      obtain ⟨ds, ws, hrest, h1, h2, h3, h4, h5⟩ := ih hr
      exact ⟨ds, ws, by rw [← hk, hrest]; simp, h1, h2, h3, h4, h5⟩
    | none =>
      rw [hr] at h
      by_cases hc : c = ':'
      · rw [if_pos hc] at h
        cases ht : tailCheck rest with
        | none => rw [ht] at h; exact absurd h (by simp)
        | some p =>
          rw [ht] at h
          simp only [Option.map_some', Option.some.injEq, Prod.mk.injEq] at h
          obtain ⟨hk, hv, hval⟩ := h
          obtain ⟨q1, q2⟩ := p
          dsimp at hv hval
          subst hv hval
          obtain ⟨ds, ws, hrest, h1, h2, h3, h4⟩ := tailCheck_decomp ht
          refine ⟨ds, ws, ?_, h1, h2, h3, h4, ?_⟩
          · rw [← hk, hc, hrest]
            simp
          · rw [← hrest]
            exact hr
      · rw [if_neg hc] at h
        exact absurd h (by simp)

theorem matchUnitAux_serialized {s : List Char} {k : List Char} {v : Option (List Char)}
    {val : List Char} (h : matchUnitAux s = some (k, v, val))
    (ds2 : List Char) (hds2 : ∀ c ∈ ds2, c.isDigit = true) :
    matchUnitAux (k ++ ':' :: (ds2 ++ (' ' :: ('"' :: (val ++ ['"']))))) =
      some (k, if ds2.isEmpty then none else some ds2, val) := by
  obtain ⟨ds, ws, hs, h1, h2, h3, h4, h5⟩ := matchUnitAux_decomp h
  have hA1 : ∀ c ∈ ds ++ (ws ++ ['"']), c ≠ ':' := by
    intro c hc
    simp at hc
    rcases hc with hc | hc | hc
    · exact ne_colon_of_isDigit (h1 c hc)
    · exact ne_colon_of_isWhitespace (h2 c hc)
    · rw [hc]; decide
  have hval_none : matchUnitAux (val ++ ['"']) = none := by
    have hiff := matchUnitAux_append_none (t := val ++ ['"']) (ds ++ (ws ++ ['"'])) hA1
    apply hiff.mp
    have e : (ds ++ (ws ++ ['"'])) ++ (val ++ ['"']) = ds ++ (ws ++ ('"' :: (val ++ ['"']))) := by
      simp
    rw [e]
    exact h5
  have hA2 : ∀ c ∈ ds2 ++ [' ', '"'], c ≠ ':' := by
    intro c hc
    simp at hc
    rcases hc with hc | hc | hc
    · exact ne_colon_of_isDigit (hds2 c hc)
    · rw [hc]; decide
    · rw [hc]; decide
  have hrest_none : matchUnitAux (ds2 ++ (' ' :: ('"' :: (val ++ ['"'])))) = none := by
    have hiff := matchUnitAux_append_none (t := val ++ ['"']) (ds2 ++ [' ', '"']) hA2
    have e : (ds2 ++ [' ', '"']) ++ (val ++ ['"']) = ds2 ++ (' ' :: ('"' :: (val ++ ['"']))) := by
      simp
    rw [e] at hiff
    exact hiff.mpr hval_none
  have hts : tailCheck (ds2 ++ (' ' :: ('"' :: (val ++ ['"'])))) =
      some (if ds2.isEmpty then none else some ds2, val) := by
    have e : ds2 ++ ([' '] ++ ('"' :: (val ++ ['"']))) = ds2 ++ (' ' :: ('"' :: (val ++ ['"']))) := by
      simp
    rw [← e]
    exact tailCheck_eq ds2 [' '] val hds2
      (by intro c hc; simp at hc; rw [hc]; decide) (by simp)
  have hcolon : matchUnitAux (':' :: (ds2 ++ (' ' :: ('"' :: (val ++ ['"']))))) =
      some ([], if ds2.isEmpty then none else some ds2, val) := by
    rw [matchUnitAux, hrest_none, if_pos rfl, hts]
    rfl
  have hfin := matchUnitAux_append_some k hcolon
  simpa using hfin

/-! ### Unit-level round trip -/

theorem parseUnitLine_roundTrip {t : List Char} {u : LocalizationUnit}
    (h : parseUnitLine t = some u) : parseUnitLine (serializeUnit u) = some u := by
  rw [parseUnitLine] at h
  cases hm : matchUnit t with
  | none =>
    rw [hm] at h
    exact absurd h (by simp)
  | some p =>
    obtain ⟨k, vOpt, val⟩ := p
    rw [hm] at h
    rw [matchUnit] at hm
    cases vOpt with
    | none =>
      simp only [Option.some.injEq] at h
      have hs : serializeUnit u = k ++ ':' :: ([] ++ (' ' :: ('"' :: (val ++ ['"'])))) := by
        rw [← h]
        simp [serializeUnit]
      have hm2 := matchUnitAux_serialized hm [] (by intro c hc; simp at hc)
      rw [parseUnitLine, matchUnit, hs, hm2]
      simp [← h]
    | some ds =>
      have h2 : (if digitsToNat ds ≤ 2147483647 then
          some (⟨⟨k⟩, some (digitsToNat ds), ⟨val⟩⟩ : LocalizationUnit) else none) = some u := h
      by_cases hle : digitsToNat ds ≤ 2147483647
      · rw [if_pos hle] at h2
        simp only [Option.some.injEq] at h2
        have hnil := natToChars_ne_nil (digitsToNat ds)
        have hs : serializeUnit u =
            k ++ ':' :: (natToChars (digitsToNat ds) ++ (' ' :: ('"' :: (val ++ ['"'])))) := by
          rw [← h2]
          simp [serializeUnit]
        have hm2 := matchUnitAux_serialized hm (natToChars (digitsToNat ds))
          (natToChars_all_digit _)
        rw [List.isEmpty_eq_false.mpr hnil] at hm2
        rw [parseUnitLine, matchUnit, hs, hm2]
        show (if digitsToNat (natToChars (digitsToNat ds)) ≤ 2147483647 then
            some (⟨⟨k⟩, some (digitsToNat (natToChars (digitsToNat ds))), ⟨val⟩⟩ :
              LocalizationUnit) else none) = some u
        rw [digitsToNat_natToChars, if_pos hle, ← h2]
      · rw [if_neg hle] at h2
        exact absurd h2 (by simp)

/-! ### Group processing lemmas -/

theorem processGroup_mem {ls : List (List Char)} {us : List LocalizationUnit}
    {u : LocalizationUnit} (h : processGroup ls = some us) (hu : u ∈ us) :
    ∃ l ∈ ls, parseUnitLine (trimL l) = some u := by
  induction ls generalizing us with
  | nil =>
    rw [processGroup] at h
    simp only [Option.some.injEq] at h
    rw [← h] at hu
    exact absurd hu (by simp)
  | cons l rest ih =>
    rw [processGroup] at h
    by_cases hskip : skipLine (trimL l)
    · rw [if_pos hskip] at h
      obtain ⟨l2, hl2, hp⟩ := ih h hu
      exact ⟨l2, by simp [hl2], hp⟩
    · rw [if_neg hskip] at h
      cases hp : parseUnitLine (trimL l) with
      | none =>
        rw [hp] at h
        exact absurd h (by simp)
      | some u0 =>
        rw [hp] at h
        rw [Option.map_eq_some'] at h
        obtain ⟨us2, hrest, hus⟩ := h
        rw [← hus] at hu
        rcases List.mem_cons.mp hu with hu | hu
        · exact ⟨l, by simp, by rw [hp, hu]⟩
        · obtain ⟨l2, hl2, hp2⟩ := ih hrest hu
          exact ⟨l2, by simp [hl2], hp2⟩

theorem processGroup_sublist {ls : List (List Char)} {us : List LocalizationUnit}
    (h : processGroup ls = some us) :
    List.Sublist (us.map some) (ls.map (fun l => parseUnitLine (trimL l))) := by
  induction ls generalizing us with
  | nil =>
    rw [processGroup] at h
    simp only [Option.some.injEq] at h
    rw [← h]
    simp
  | cons l rest ih =>
    rw [processGroup] at h
    by_cases hskip : skipLine (trimL l)
    · rw [if_pos hskip] at h
      exact List.Sublist.cons _ (ih h)
    · rw [if_neg hskip] at h
      cases hp : parseUnitLine (trimL l) with
      | none =>
        rw [hp] at h
        exact absurd h (by simp)
      | some u0 =>
        rw [hp] at h
        rw [Option.map_eq_some'] at h
        obtain ⟨us2, hrest, hus⟩ := h
        rw [← hus]
        simp only [List.map_cons, hp]
        exact List.Sublist.cons₂ _ (ih hrest)

theorem processGroup_fail {ls : List (List Char)} {l : List Char} (hl : l ∈ ls)
    (hskip : skipLine (trimL l) = false) (hfail : parseUnitLine (trimL l) = none) :
    processGroup ls = none := by
  induction ls with
  | nil => exact absurd hl (by simp)
  | cons a rest ih =>
    rw [processGroup]
    rcases List.mem_cons.mp hl with hl | hl
    · rw [← hl, hskip, hfail]
      simp
    · by_cases hs : skipLine (trimL a)
      · rw [if_pos hs]
        exact ih hl
      · rw [if_neg hs]
        cases hp : parseUnitLine (trimL a) with
        | none => rfl
        | some u0 => rw [ih hl]; rfl

theorem processGroup_all_skip {ls : List (List Char)}
    (h : ∀ l ∈ ls, skipLine (trimL l) = true) : processGroup ls = some [] := by
  induction ls with
  | nil => rfl
  | cons a rest ih =>
    rw [processGroup, if_pos (h a (by simp))]
    exact ih (fun l hl => h l (by simp [hl]))

/-! ### mapMO lemmas -/

theorem mapMO_mem_of {α β : Type} {f : α → Option β} {m : List α} {bs : List β} {b : β}
    (h : mapMO f m = some bs) (hb : b ∈ bs) : ∃ a ∈ m, f a = some b := by
  induction m generalizing bs with
  | nil =>
    rw [mapMO] at h
    simp only [Option.some.injEq] at h
    rw [← h] at hb
    exact absurd hb (by simp)
  | cons a m ih =>
    rw [mapMO] at h
    cases hf : f a with
    | none =>
      rw [hf] at h
      exact absurd h (by simp)
    | some b0 =>
      rw [hf] at h
      rw [Option.map_eq_some'] at h
      obtain ⟨bs2, hrest, hbs⟩ := h
      rw [← hbs] at hb
      rcases List.mem_cons.mp hb with hb | hb
      · exact ⟨a, by simp, by rw [hf, hb]⟩
      · obtain ⟨a2, ha2, hf2⟩ := ih hrest hb
        exact ⟨a2, by simp [ha2], hf2⟩

theorem mapMO_mem_to {α β : Type} {f : α → Option β} {m : List α} {bs : List β} {a : α}
    (h : mapMO f m = some bs) (ha : a ∈ m) : ∃ b ∈ bs, f a = some b := by
  induction m generalizing bs with
  | nil => exact absurd ha (by simp)
  | cons a0 m ih =>
    rw [mapMO] at h
    cases hf : f a0 with
    | none =>
      rw [hf] at h
      exact absurd h (by simp)
    | some b0 =>
      rw [hf] at h
      rw [Option.map_eq_some'] at h
      obtain ⟨bs2, hrest, hbs⟩ := h
      rcases List.mem_cons.mp ha with ha | ha
      · exact ⟨b0, by rw [← hbs]; simp, by rw [ha, hf]⟩
      · obtain ⟨b, hb, hf2⟩ := ih hrest ha
        exact ⟨b, by rw [← hbs]; simp [hb], hf2⟩

theorem mapMO_none {α β : Type} {f : α → Option β} {m : List α} {a : α}
    (ha : a ∈ m) (h : f a = none) : mapMO f m = none := by
  induction m with
  | nil => exact absurd ha (by simp)
  | cons a0 m ih =>
    rw [mapMO]
    rcases List.mem_cons.mp ha with ha0 | ha0
    · rw [← ha0, h]
    · cases hf : f a0 with
      | none => rfl
      | some b0 => rw [ih ha0]; rfl

/-! ### Association-list (HashMap model) lemmas -/

theorem insertEntry_mem {m : List (List Char × List (List Char))} {k : List Char}
    {v : List (List Char)} {p} (h : p ∈ insertEntry m k v) : p = (k, v) ∨ p ∈ m := by
  induction m with
  | nil => simpa [insertEntry] using h
  | cons q m ih =>
    obtain ⟨k0, v0⟩ := q
    rw [insertEntry] at h
    by_cases h0 : k0 = k
    · rw [if_pos h0] at h
      rcases List.mem_cons.mp h with h | h
      · exact Or.inl h
      · exact Or.inr (by simp [h])
    · rw [if_neg h0] at h
      rcases List.mem_cons.mp h with h | h
      · exact Or.inr (by simp [h])
      · rcases ih h with h | h
        · exact Or.inl h
        · exact Or.inr (by simp [h])

theorem lookupK_insertEntry (m : List (List Char × List (List Char))) (k : List Char)
    (v : List (List Char)) (k2 : List Char) :
    lookupK k2 (insertEntry m k v) = if k = k2 then some v else lookupK k2 m := by
  induction m with
  | nil =>
    by_cases hk : k = k2 <;> simp [insertEntry, lookupK, hk]
  | cons q m ih =>
    obtain ⟨k0, v0⟩ := q
    rw [insertEntry]
    by_cases h0 : k0 = k
    · subst h0
      by_cases hk : k0 = k2 <;> simp [lookupK, hk]
    · rw [if_neg h0]
      by_cases hk : k0 = k2
      · have hne : ¬(k = k2) := fun he => h0 (by rw [he, hk])
        simp [lookupK, hk, hne]
      · simp [lookupK, hk, ih]

theorem lookupK_append (k : List Char) (a b : List (List Char × List (List Char))) :
    lookupK k (a ++ b) = orO (lookupK k a) (lookupK k b) := by
  induction a with
  | nil => simp [lookupK, orO]
  | cons q a ih =>
    obtain ⟨k0, v0⟩ := q
    by_cases h0 : k0 = k <;> simp [lookupK, h0, ih, orO]

theorem lookupK_foldl (l : List (List Char × List (List Char)))
    (m : List (List Char × List (List Char))) (k : List Char) :
    lookupK k (l.foldl (fun m q => insertEntry m q.1 q.2) m) =
      orO (lookupK k l.reverse) (lookupK k m) := by
  induction l generalizing m with
  | nil => simp [lookupK, orO]
  | cons q l ih =>
    rw [List.foldl_cons, ih, List.reverse_cons, lookupK_append, lookupK_insertEntry]
    cases hx : lookupK k l.reverse with
    | some v => simp [orO]
    | none =>
      by_cases hq : q.1 = k <;> simp [orO, lookupK, hq]

theorem lookupK_mem {m : List (List Char × List (List Char))} {k : List Char}
    {v : List (List Char)} (h : lookupK k m = some v) : (k, v) ∈ m := by
  induction m with
  | nil => simp [lookupK] at h
  | cons q m ih =>
    obtain ⟨k0, v0⟩ := q
    rw [lookupK] at h
    by_cases h0 : k0 = k
    · rw [if_pos h0] at h
      simp only [Option.some.injEq] at h
      rw [← h, ← h0]
      simp
    · rw [if_neg h0] at h
      exact List.mem_cons_of_mem _ (ih h)

theorem lookupK_isSome_of_key_mem {m : List (List Char × List (List Char))} {k : List Char}
    (h : k ∈ m.map Prod.fst) : ∃ v, lookupK k m = some v := by
  induction m with
  | nil => simp at h
  | cons q m ih =>
    obtain ⟨k0, v0⟩ := q
    by_cases h0 : k0 = k
    · exact ⟨v0, by rw [lookupK, if_pos h0]⟩
    · have hk : k ∈ m.map Prod.fst := by
        simp only [List.map_cons] at h
        rcases List.mem_cons.mp h with h | h
        · exact absurd h.symm h0
        · exact h
      obtain ⟨v, hv⟩ := ih hk
      exact ⟨v, by rw [lookupK, if_neg h0, hv]⟩

theorem keys_insertEntry_sub {m : List (List Char × List (List Char))} {k : List Char}
    {v : List (List Char)} {k2 : List Char}
    (h : k2 ∈ (insertEntry m k v).map Prod.fst) : k2 = k ∨ k2 ∈ m.map Prod.fst := by
  rw [List.mem_map] at h
  obtain ⟨p, hp, hk2⟩ := h
  rcases insertEntry_mem hp with h | h
  · rw [h] at hk2
    exact Or.inl hk2.symm
  · exact Or.inr (by rw [← hk2]; exact List.mem_map_of_mem _ h)

theorem keys_insertEntry_nodup {m : List (List Char × List (List Char))} {k : List Char}
    {v : List (List Char)} (h : (m.map Prod.fst).Nodup) :
    ((insertEntry m k v).map Prod.fst).Nodup := by
  induction m with
  | nil => simp [insertEntry]
  | cons q m ih =>
    obtain ⟨k0, v0⟩ := q
    simp only [List.map_cons, List.nodup_cons] at h
    rw [insertEntry]
    by_cases h0 : k0 = k
    · rw [if_pos h0]
      simp only [List.map_cons, List.nodup_cons]
      exact ⟨by rw [← h0]; exact h.1, h.2⟩
    · rw [if_neg h0]
      simp only [List.map_cons, List.nodup_cons]
      refine ⟨fun hmem => ?_, ih h.2⟩
      rcases keys_insertEntry_sub hmem with he | he
      · exact h0 he
      · exact h.1 he

theorem keys_foldl_nodup (l : List (List Char × List (List Char))) :
    ∀ m, ((m.map Prod.fst).Nodup) →
      (((l.foldl (fun m q => insertEntry m q.1 q.2) m).map Prod.fst).Nodup) := by
  induction l with
  | nil => exact fun m h => h
  | cons q l ih =>
    intro m h
    rw [List.foldl_cons]
    exact ih _ (keys_insertEntry_nodup h)

theorem unitsForEntry_keys_nodup (lines : List (List Char)) :
    ((unitsForEntry lines).map Prod.fst).Nodup := by
  rw [unitsForEntry]
  exact keys_foldl_nodup _ [] (by simp)

theorem countP_key_zero {m : List (List Char × List (List Char))} {k : List Char}
    (h : k ∉ m.map Prod.fst) : m.countP (fun p => decide (p.1 = k)) = 0 := by
  induction m with
  | nil => rfl
  | cons q m ih =>
    rw [List.countP_cons]
    have h1 : k ∉ m.map Prod.fst := fun hm => h (by simp [hm])
    have h2 : ¬(q.1 = k) := fun he => h (by simp [← he])
    simp [ih h1, h2]

theorem countP_key_one {m : List (List Char × List (List Char))} {k : List Char}
    (hnd : (m.map Prod.fst).Nodup) (hk : k ∈ m.map Prod.fst) :
    m.countP (fun p => decide (p.1 = k)) = 1 := by
  induction m with
  | nil => simp at hk
  | cons q m ih =>
    simp only [List.map_cons, List.nodup_cons] at hnd
    rw [List.countP_cons]
    by_cases h0 : q.1 = k
    · have hz : k ∉ m.map Prod.fst := by rw [← h0]; exact hnd.1
      simp [countP_key_zero hz, h0]
    · have hk2 : k ∈ m.map Prod.fst := by
        simp only [List.map_cons] at hk
        rcases List.mem_cons.mp hk with h | h
        · exact absurd h.symm h0
        · exact h
      simp [ih hnd.2 hk2, h0]

theorem mem_foldl_insert {l : List (List Char × List (List Char))}
    {p : List Char × List (List Char)} :
    ∀ {m}, p ∈ l.foldl (fun m q => insertEntry m q.1 q.2) m →
      p ∈ m ∨ ∃ v, (p.1, v) ∈ l := by
  induction l with
  | nil => exact fun h => Or.inl h
  | cons q l ih =>
    intro m h
    rw [List.foldl_cons] at h
    rcases ih h with h | h
    · rcases insertEntry_mem h with h | h
      · refine Or.inr ⟨q.2, ?_⟩
        rw [h]
        simp
      · exact Or.inl h
    · obtain ⟨v, hv⟩ := h
      exact Or.inr ⟨v, by simp [hv]⟩

/-! ### Header and range provenance -/

theorem entryRanges_fst (es : List Nat) (n : Nat) : (entryRanges es n).map Prod.fst = es := by
  induction es with
  | nil => rfl
  | cons i tail ih =>
    cases tail with
    | nil => rfl
    | cons j rest =>
      rw [entryRanges, List.map_cons, ih]

theorem langEntries_mem {lines : List (List Char)} {i : Nat} (h : i ∈ langEntries lines) :
    i < lines.length ∧ isHeader (lines.getD i []) = true := by
  induction lines generalizing i with
  | nil => simp [langEntries] at h
  | cons l rest ih =>
    rw [langEntries] at h
    rcases List.mem_append.mp h with h | h
    · by_cases hh : isHeader l
      · rw [if_pos hh] at h
        simp only [List.mem_singleton] at h
        subst h
        exact ⟨by simp, hh⟩
      · rw [if_neg hh] at h
        simp at h
    · rw [List.mem_map] at h
      obtain ⟨j, hj, hij⟩ := h
      obtain ⟨h1, h2⟩ := ih hj
      subst hij
      exact ⟨by simpa using h1, by simpa using h2⟩

theorem associatedUnits_key {lines : List (List Char)} {p}
    (h : p ∈ associatedUnits lines) :
    ∃ i, i ∈ langEntries lines ∧ p.1 = (lines.getD i []).drop 2 := by
  rw [associatedUnits, List.mem_map] at h
  obtain ⟨q, hq, hp⟩ := h
  refine ⟨q.1, ?_, ?_⟩
  · rw [← entryRanges_fst (langEntries lines) lines.length]
    exact List.mem_map_of_mem _ hq
  · rw [← hp]

/-! ### Discarding lines before the first header -/

theorem entryRanges_map_succ (es : List Nat) (n : Nat) :
    entryRanges (es.map (· + 1)) (n + 1) =
      (entryRanges es n).map (fun p => (p.1 + 1, p.2 + 1)) := by
  induction es with
  | nil => rfl
  | cons i tail ih =>
    cases tail with
    | nil => rfl
    | cons j rest =>
      simp only [List.map_cons] at ih ⊢
      rw [entryRanges, entryRanges, List.map_cons, ← ih]

theorem associatedUnits_cons_nonheader {l : List Char} {lines : List (List Char)}
    (h : isHeader l = false) :
    associatedUnits (l :: lines) = associatedUnits lines := by
  rw [associatedUnits, associatedUnits, langEntries, h]
  simp only [Bool.false_eq_true, if_false, List.nil_append, List.length_cons]
  rw [entryRanges_map_succ, List.map_map]
  apply List.map_congr_left
  intro p _hp
  simp only [Function.comp_apply]
  rw [List.getD_cons_succ, List.drop_succ_cons]
  have he : p.2 + 1 - (p.1 + 1) - 1 = p.2 - p.1 - 1 := by omega
  rw [he]

theorem parseLines_cons_nonheader {l : List Char} {lines : List (List Char)}
    (h : isHeader l = false) : parseLines (l :: lines) = parseLines lines := by
  rw [parseLines, parseLines, unitsForEntry, unitsForEntry, associatedUnits_cons_nonheader h]

/-! ### Claims -/

/-- C1: on the input `l_english:` / ` greeting.1.t: "Hello"` /
` greeting.1.d:0 "World"`, parse returns exactly one Localization with
the two claimed units in order, but its `lang` is `"english:"` — the
trailing colon of the header is kept, because the code only removes the
first two characters and the `"l_"` substrings.  The claimed
`lang = "english"` (also asserted by the repository's own test for
`l_russian:`) does not hold on the code. -/
theorem C1_concrete_scenario_eval :
    Localization.parse "l_english:\n greeting.1.t: \"Hello\"\n greeting.1.d:0 \"World\"" =
      some [⟨"english:", [⟨"greeting.1.t", none, "Hello"⟩,
        ⟨"greeting.1.d", some 0, "World"⟩]⟩] ∧
    ("english:" : String) ≠ "english" := by
  constructor
  · decide
  · decide

/-- C2 counterexample: for the header line `l_al_b` the code removes the
first two characters and then every remaining `"l_"` occurrence, giving
`lang = "ab"`, not the claimed `"al_b"`. -/
theorem C2_counterexample :
    Localization.parse "l_al_b" = some [⟨"ab", []⟩] ∧ ("ab" : String) ≠ "al_b" := by
  constructor
  · decide
  · decide

/-- C2 (amended): every Localization produced by parse takes its `lang`
from some header line by removing the first two characters and then
every remaining occurrence of the substring `"l_"` (so `l_french`
yields `"french"`, and other trailing text is kept). -/
theorem C2_lang_from_header (lines : List (List Char)) (locs : List Localization)
    (loc : Localization) (h : parseLines lines = some locs) (hloc : loc ∈ locs) :
    ∃ l ∈ lines, isHeader l = true ∧ loc.lang = ⟨replaceLU (l.drop 2)⟩ := by
  obtain ⟨p, hp, hf⟩ := mapMO_mem_of h hloc
  rw [Option.map_eq_some'] at hf
  obtain ⟨us, hg, hl⟩ := hf
  rcases mem_foldl_insert (by rw [← unitsForEntry]; exact hp) with hfalse | hkey
  · exact absurd hfalse (by simp)
  · obtain ⟨v, hv⟩ := hkey
    obtain ⟨i, hi, hik⟩ := associatedUnits_key hv
    obtain ⟨hilt, hih⟩ := langEntries_mem hi
    refine ⟨lines.getD i [], ?_, hih, ?_⟩
    · rw [List.getD_eq_getElem _ _ hilt]
      exact List.getElem_mem hilt
    · rw [← hl]
      simp only at hik
      rw [hik]

/-- C2 witness. -/
theorem C2_witness :
    ∃ l ∈ ["l_french".data], isHeader l = true ∧
      (Localization.mk "french" [] : Localization).lang = ⟨replaceLU (l.drop 2)⟩ :=
  C2_lang_from_header ["l_french".data] [⟨"french", []⟩] ⟨"french", []⟩
    (by decide) (by decide)

/-- C3 counterexample: in `l_x` / `bad` / `l_x` the line `bad` is owned
by the first header, is neither blank nor a comment, and does not match
the unit grammar; yet parse succeeds, because the second `l_x` header
overwrites the first one's line-set in the map before any line is
matched. -/
theorem C3_counterexample :
    rustLines "l_x\nbad\nl_x".data = ["l_x".data, "bad".data, "l_x".data] ∧
    langEntries ["l_x".data, "bad".data, "l_x".data] = [0, 2] ∧
    skipLine (trimL "bad".data) = false ∧
    matchUnit (trimL "bad".data) = none ∧
    Localization.parse "l_x\nbad\nl_x" = some [⟨"x", []⟩] := by
  refine ⟨by decide, by decide, by decide, by decide, by decide⟩

/-- C3 (amended): if any line of a line-set that survives the grouping
map (the owned lines of the last header occurrence with a given text)
is neither blank nor a comment after trimming and fails the unit
grammar, the whole parse fails and returns nothing. -/
theorem C3_malformed_line_fails (lines : List (List Char)) (k : List Char)
    (ls : List (List Char)) (l : List Char)
    (hmem : (k, ls) ∈ unitsForEntry lines) (hl : l ∈ ls)
    (hskip : skipLine (trimL l) = false) (hfail : matchUnit (trimL l) = none) :
    parseLines lines = none := by
  apply mapMO_none hmem
  have hpu : parseUnitLine (trimL l) = none := by rw [parseUnitLine, hfail]
  rw [processGroup_fail hl hskip hpu]
  rfl

/-- C3 witness. -/
theorem C3_witness : parseLines ["l_x".data, "bad".data] = none :=
  C3_malformed_line_fails ["l_x".data, "bad".data] "x".data ["bad".data] "bad".data
    (by decide) (by decide) (by decide) (by decide)

/-- C4 counterexample: on the unit line `a"b: "v"` (whose key contains a
double-quote) the parsed value is `v`, while the text strictly between
the first and the last double-quote of the trimmed line is `b: "v`. -/
theorem C4_counterexample :
    Localization.parse "l_x\na\"b: \"v\"" = some [⟨"x", [⟨"a\"b", none, "v"⟩]⟩] ∧
    specBetweenFirstLastQuote (trimL "a\"b: \"v\"".data) = some "b: \"v".data ∧
    "v".data ≠ "b: \"v".data := by
  refine ⟨by decide, by decide, by decide⟩

/-- C4 (amended): for every line matched by the unit grammar, the value
is the text strictly between the double-quote that follows the key,
optional version digits and nonempty whitespace, and the final
double-quote of the line; this is the first/last-quote span whenever
the key contains no double-quote. -/
theorem C4_value_between_quotes (t : List Char) (k : List Char)
    (v : Option (List Char)) (val : List Char) (h : matchUnit t = some (k, v, val)) :
    ∃ ds ws, t = k ++ ':' :: (ds ++ (ws ++ ('"' :: (val ++ ['"'])))) ∧
      (∀ c ∈ ds, c.isDigit = true) ∧ (∀ c ∈ ws, c.isWhitespace = true) ∧ ws ≠ [] ∧
      v = (if ds.isEmpty then none else some ds) := by
  rw [matchUnit] at h
  obtain ⟨ds, ws, h1, h2, h3, h4, h5, _⟩ := matchUnitAux_decomp h
  exact ⟨ds, ws, h1, h2, h3, h4, h5⟩

/-- C4 witness. -/
theorem C4_witness :
    ∃ ds ws, "k: \"v\"".data = "k".data ++ ':' :: (ds ++ (ws ++ ('"' :: ("v".data ++ ['"'])))) ∧
      (∀ c ∈ ds, c.isDigit = true) ∧ (∀ c ∈ ws, c.isWhitespace = true) ∧ ws ≠ [] ∧
      (none : Option (List Char)) = (if ds.isEmpty then none else some ds) :=
  C4_value_between_quotes "k: \"v\"".data "k".data none "v".data (by decide)

/-- C5 counterexample: the unit `{key: "k", version: none, value: "v"}`
is produced by parse from `l_x` / `k: "v"`; serializing it with the
whole `:version` part omitted gives the line `k "v"`, and re-parsing
that line under its header fails (no colon, so the grammar does not
match) instead of yielding the unit back. -/
theorem C5_counterexample :
    Localization.parse "l_x\nk: \"v\"" = some [⟨"x", [⟨"k", none, "v"⟩]⟩] ∧
    Localization.parse "l_x\nk \"v\"" = none := by
  refine ⟨by decide, by decide⟩

/-- C5 (amended): for every LocalizationUnit produced by parse,
serializing it as `key:version "value"` with the colon kept and only
the digits omitted when the version is absent, and re-parsing that
single line with the unit-line grammar, yields an equal
LocalizationUnit. -/
theorem C5_roundTrip (content : String) (locs : List Localization)
    (loc : Localization) (u : LocalizationUnit)
    (h : Localization.parse content = some locs) (hloc : loc ∈ locs)
    (hu : u ∈ loc.units) : parseUnitLine (serializeUnit u) = some u := by
  rw [Localization.parse] at h
  obtain ⟨p, _hp, hf⟩ := mapMO_mem_of h hloc
  rw [Option.map_eq_some'] at hf
  obtain ⟨us, hg, hl⟩ := hf
  have huu : u ∈ us := by
    rw [← hl] at hu
    exact hu
  obtain ⟨l2, _, hpl⟩ := processGroup_mem hg huu
  exact parseUnitLine_roundTrip hpl

/-- C5 witness. -/
theorem C5_witness :
    parseUnitLine (serializeUnit ⟨"k", some 7, "v"⟩) = some ⟨"k", some 7, "v"⟩ :=
  C5_roundTrip "l_x\nk:7 \"v\"" [⟨"x", [⟨"k", some 7, "v"⟩]⟩]
    ⟨"x", [⟨"k", some 7, "v"⟩]⟩ ⟨"k", some 7, "v"⟩ (by decide) (by decide) (by decide)

/-- C6: within one Localization the units appear in source-line order
with duplicates preserved: the unit list (mapped into options) is a
sublist of the per-line parses of that group's owned lines, in order. -/
theorem C6_order_preserved (lines : List (List Char)) (locs : List Localization)
    (loc : Localization) (h : parseLines lines = some locs) (hloc : loc ∈ locs) :
    ∃ k ls, (k, ls) ∈ unitsForEntry lines ∧ loc.lang = ⟨replaceLU k⟩ ∧
      processGroup ls = some loc.units ∧
      List.Sublist (loc.units.map some) (ls.map (fun l => parseUnitLine (trimL l))) := by
  obtain ⟨p, hp, hf⟩ := mapMO_mem_of h hloc
  rw [Option.map_eq_some'] at hf
  obtain ⟨us, hg, hl⟩ := hf
  refine ⟨p.1, p.2, hp, ?_, ?_, ?_⟩
  · rw [← hl]
  · rw [← hl]
    exact hg
  · rw [← hl]
    exact processGroup_sublist hg

/-- C6 witness. -/
theorem C6_witness :
    ∃ k ls, (k, ls) ∈ unitsForEntry ["l_x".data, " a: \"1\"".data, " a: \"1\"".data] ∧
      (Localization.mk "x" [⟨"a", none, "1"⟩, ⟨"a", none, "1"⟩]).lang = ⟨replaceLU k⟩ ∧
      processGroup ls = some [⟨"a", none, "1"⟩, ⟨"a", none, "1"⟩] ∧
      List.Sublist ([⟨"a", none, "1"⟩, ⟨"a", none, "1"⟩].map some)
        (ls.map (fun l => parseUnitLine (trimL l))) :=
  C6_order_preserved ["l_x".data, " a: \"1\"".data, " a: \"1\"".data]
    [⟨"x", [⟨"a", none, "1"⟩, ⟨"a", none, "1"⟩]⟩]
    ⟨"x", [⟨"a", none, "1"⟩, ⟨"a", none, "1"⟩]⟩ (by decide) (by decide)

/-- C7: when a post-prefix header text occurs on several header lines,
the grouping map holds exactly one entry for that text, that entry is
the one of the last such header line (first hit of a reverse lookup
over the header-ordered ranges), and the returned collection contains
the Localization built from that last line-set. -/
theorem C7_duplicate_header_last_wins (lines : List (List Char)) (k : List Char)
    (locs : List Localization) (hk : k ∈ (associatedUnits lines).map Prod.fst)
    (hparse : parseLines lines = some locs) :
    (unitsForEntry lines).countP (fun p => decide (p.1 = k)) = 1 ∧
    lookupK k (unitsForEntry lines) = lookupK k (associatedUnits lines).reverse ∧
    ∃ ls us, lookupK k (associatedUnits lines).reverse = some ls ∧
      processGroup ls = some us ∧ Localization.mk ⟨replaceLU k⟩ us ∈ locs := by
  have hrev : k ∈ (associatedUnits lines).reverse.map Prod.fst := by
    rw [List.map_reverse, List.mem_reverse]
    exact hk
  obtain ⟨ls, hls⟩ := lookupK_isSome_of_key_mem hrev
  have hlk : lookupK k (unitsForEntry lines) = lookupK k (associatedUnits lines).reverse := by
    rw [unitsForEntry, lookupK_foldl, hls]
    rfl
  have hmem : (k, ls) ∈ unitsForEntry lines := lookupK_mem (by rw [hlk, hls])
  have hkmem : k ∈ (unitsForEntry lines).map Prod.fst := by
    rw [List.mem_map]
    exact ⟨(k, ls), hmem, rfl⟩
  refine ⟨countP_key_one (unitsForEntry_keys_nodup lines) hkmem, hlk, ?_⟩
  obtain ⟨b, hb, hf⟩ := mapMO_mem_to hparse hmem
  rw [Option.map_eq_some'] at hf
  obtain ⟨us, hg, hbu⟩ := hf
  refine ⟨ls, us, hls, hg, ?_⟩
  rw [hbu]
  exact hb

/-- C7 witness. -/
theorem C7_witness :
    (unitsForEntry ["l_x".data, " a: \"1\"".data, "l_x".data, " b: \"2\"".data]).countP
      (fun p => decide (p.1 = "x".data)) = 1 ∧
    lookupK "x".data
        (unitsForEntry ["l_x".data, " a: \"1\"".data, "l_x".data, " b: \"2\"".data]) =
      lookupK "x".data
        (associatedUnits ["l_x".data, " a: \"1\"".data, "l_x".data, " b: \"2\"".data]).reverse ∧
    ∃ ls us,
      lookupK "x".data
        (associatedUnits ["l_x".data, " a: \"1\"".data, "l_x".data, " b: \"2\"".data]).reverse =
        some ls ∧
      processGroup ls = some us ∧
      Localization.mk ⟨replaceLU "x".data⟩ us ∈ [⟨"x", [⟨"b", none, "2"⟩]⟩] :=
  C7_duplicate_header_last_wins ["l_x".data, " a: \"1\"".data, "l_x".data, " b: \"2\"".data]
    "x".data [⟨"x", [⟨"b", none, "2"⟩]⟩] (by decide) (by decide)

/-- C8 counterexample: in `l_x` / `#c` / `l_x` / `bad` the first
header's owned range is the single comment line `#c`, but parse does
not return a Localization with empty units for it: the duplicate
header's line-set replaces it and the malformed `bad` line makes the
whole parse fail, so nothing is returned at all. -/
theorem C8_counterexample :
    associatedUnits (rustLines "l_x\n#c\nl_x\nbad".data) =
      [("x".data, ["#c".data]), ("x".data, ["bad".data])] ∧
    skipLine (trimL "#c".data) = true ∧
    Localization.parse "l_x\n#c\nl_x\nbad" = none := by
  refine ⟨by decide, by decide, by decide⟩

/-- C8 (amended): if the line-set of the last header occurrence with a
given text contains only blank or comment lines and parse returns a
result, that result contains a Localization for that header with an
empty unit list. -/
theorem C8_comment_only_group (lines : List (List Char)) (k : List Char)
    (ls : List (List Char)) (locs : List Localization)
    (hlast : lookupK k (associatedUnits lines).reverse = some ls)
    (hskip : ∀ l ∈ ls, skipLine (trimL l) = true)
    (hparse : parseLines lines = some locs) :
    Localization.mk ⟨replaceLU k⟩ [] ∈ locs := by
  have hlk : lookupK k (unitsForEntry lines) = some ls := by
    rw [unitsForEntry, lookupK_foldl, hlast]
    rfl
  have hmem := lookupK_mem hlk
  obtain ⟨b, hb, hf⟩ := mapMO_mem_to hparse hmem
  rw [processGroup_all_skip hskip] at hf
  simp only [Option.map_some', Option.some.injEq] at hf
  rw [hf]
  exact hb

/-- C8 witness. -/
theorem C8_witness :
    Localization.mk ⟨replaceLU "x".data⟩ [] ∈ [Localization.mk "x" []] :=
  C8_comment_only_group ["l_x".data, "#c".data] "x".data ["#c".data]
    [Localization.mk "x" []] (by decide) (by decide) (by decide)

/-- C9: lines before the first header line are wholly ignored — parsing
with any header-free block in front returns exactly the same result as
parsing without it, so such lines produce no unit and cause no
failure. -/
theorem C9_pre_header_lines_ignored (pre lines : List (List Char))
    (h : ∀ l ∈ pre, isHeader l = false) :
    parseLines (pre ++ lines) = parseLines lines := by
  induction pre with
  | nil => rfl
  | cons l pre ih =>
    rw [List.cons_append, parseLines_cons_nonheader (h l (by simp)),
      ih (fun a ha => h a (by simp [ha]))]

/-- C9 witness. -/
theorem C9_witness :
    parseLines (["badline without quotes".data] ++ ["l_x".data]) = parseLines ["l_x".data] :=
  C9_pre_header_lines_ignored ["badline without quotes".data] ["l_x".data] (by decide)

/-- C10: the line `k:99999999999 "v"` matches the unit grammar (key
`k`, version digits `99999999999`, value `v`), but its version exceeds
`i32::MAX = 2147483647`, so the version `parse().unwrap()` aborts and
parse returns nothing. -/
theorem C10_version_overflow_aborts :
    matchUnit (trimL "k:99999999999 \"v\"".data) =
      some ("k".data, some "99999999999".data, "v".data) ∧
    digitsToNat "99999999999".data = 99999999999 ∧
    2147483647 < 99999999999 ∧
    Localization.parse "l_x\nk:99999999999 \"v\"" = none := by
  refine ⟨by decide, by decide, by decide, by decide⟩

end Paradox
